import Mathlib

/-!
Verification of the contact-book name prefix-search index
(`src/contactbook/fast_lookup.py`, `src/contactbook/db.py`,
`src/contactbook/models.py`).

The Python index stores, inside a `SortedStringTrie`, *mutable dict
objects* shared by reference: `FastTrieLookup.add_person` builds one
`value_dict = {person.id: person.full_name}` and passes that same object
to `_add_name` for every populated attribute, and `_add_name` installs
the object itself into the trie when the token is new.  Later in-place
`dict.update` / `dict.pop` calls on one trie entry are therefore visible
through every other entry that aliases the same dict.  To stay faithful
to this we embed the state as an association list of trie entries
mapping folded tokens to *heap addresses*, plus a heap mapping addresses
to dict contents.  The trie in the source keeps its keys sorted; here
entries are kept as an association list with unique keys, which answers
the same lookups (no property below depends on enumeration order).
Python dicts are embedded as insertion-ordered association lists with
unique keys; `dict.update` overwrites values in place and appends new
keys, `dict.pop(k, None)` drops the key if present.
-/

/-- `str.lower` on one character (the repository's data is ASCII; the
embedding folds the ASCII range, as `A`–`Z` are the only characters the
claims exercise). -/
def lowerChar (c : Char) : Char :=
  if 'A' ≤ c ∧ c ≤ 'Z' then Char.ofNat (c.toNat + 32) else c

/-- `str.lower`. -/
def strLower (s : String) : String := ⟨s.data.map lowerChar⟩

/-- `List.isPrefixOf` as a structurally recursive Bool. -/
def isPfx : List Char → List Char → Bool
  | [], _ => true
  | _ :: _, [] => false
  | a :: as, b :: bs => a = b && isPfx as bs

/-- `key.startswith(pq)` as used by the trie's ordered prefix lookup. -/
def strIsPfx (p s : String) : Bool := isPfx p.data s.data

/-- Helper for `pySplit`: accumulate the current word (reversed). -/
def wordsAux : List Char → List Char → List String
  | [], acc => if acc.isEmpty then [] else [⟨acc.reverse⟩]
  | c :: cs, acc =>
    if c.isWhitespace then
      (if acc.isEmpty then wordsAux cs []
       else (⟨acc.reverse⟩ : String) :: wordsAux cs [])
    else wordsAux cs (c :: acc)

/-- `str.split()` with no argument: split on whitespace runs, no empty
words. -/
def pySplit (s : String) : List String := wordsAux s.data []

deriving instance DecidableEq for Except

/-- A Python dict `{person.id: full_name}`: insertion-ordered pairs. -/
abbrev Dict := List (Nat × String)

/-- `d[k] = v` on a Python dict: overwrite in place if the key exists
(keeping its position), otherwise append. -/
def dictSet (d : Dict) (k : Nat) (v : String) : Dict :=
  if d.any (fun kv => kv.1 = k) then
    d.map (fun kv => if kv.1 = k then (k, v) else kv)
  else
    d ++ [(k, v)]

/-- `d.update(e)` on Python dicts. -/
def dictUpdate (d e : Dict) : Dict :=
  e.foldl (fun acc kv => dictSet acc kv.1 kv.2) d

/-- `d.pop(k, None)` on a Python dict (keys are unique, so dropping
every pair with key `k` removes exactly the one entry if present). -/
def dictPop (d : Dict) (k : Nat) : Dict :=
  d.filter (fun kv => kv.1 ≠ k)

/-- The state of `FastTrieLookup`: `entries` is the trie (folded token →
address of its value dict), `heap` gives each address's current dict
contents, `next` is the next fresh address.  Distinct entries may share
an address — exactly the object aliasing present in the Python code. -/
structure Trie where
  entries : List (String × Nat)
  heap : List (Nat × Dict)
  next : Nat
deriving Repr, DecidableEq

/-- `FastTrieLookup.__init__`: empty trie, empty heap. -/
def Trie.empty : Trie := ⟨[], [], 0⟩

/-- `name in self.trie` / `self.trie[name]` as an address lookup. -/
def Trie.lookupAddr (t : Trie) (n : String) : Option Nat :=
  (t.entries.find? (fun e => e.1 = n)).map (·.2)

/-- Dereference a heap address (the dict object currently stored there). -/
def Trie.heapGet (t : Trie) (a : Nat) : Dict :=
  ((t.heap.find? (fun c => c.1 = a)).map (·.2)).getD []

/-- In-place mutation of the dict object at address `a`. -/
def Trie.heapSet (t : Trie) (a : Nat) (d : Dict) : Trie :=
  { t with heap := t.heap.map (fun c => if c.1 = a then (a, d) else c) }

/-- Allocate a fresh dict object, returning its address. -/
def Trie.alloc (t : Trie) (d : Dict) : Trie × Nat :=
  ({ t with heap := t.heap ++ [(t.next, d)], next := t.next + 1 }, t.next)

/-- `FastTrieLookup._add_name(name, value_dict)` where `vd` is the
address of the caller's `value_dict` object: fold the token, then either
`self.trie[name].update(value_dict)` (in-place mutation of the stored
dict object) or `self.trie[name] = value_dict` (install the caller's
object itself — this is where aliasing between entries is created). -/
def addName (t : Trie) (name : String) (vd : Nat) : Trie :=
  let n := strLower name
  match t.lookupAddr n with
  | some a => t.heapSet a (dictUpdate (t.heapGet a) (t.heapGet vd))
  | none => { t with entries := t.entries ++ [(n, vd)] }

/-- `FastTrieLookup._delete_value_for_name(name, value_dict_key)`:
`KeyError` (modelled as `.error` carrying the untouched state) when the
folded token has no trie entry; otherwise `values.pop(key, None)`
mutates the stored dict in place and the entry is deleted only when the
dict became empty (the heap cell itself survives, as the Python object
does, and other entries aliasing it still point at it). -/
def delName (t : Trie) (name : String) (key : Nat) : Except Trie Trie :=
  let n := strLower name
  match t.lookupAddr n with
  | some a =>
    let values := dictPop (t.heapGet a) key
    let t1 := t.heapSet a values
    if values.isEmpty then
      Except.ok { t1 with entries := t1.entries.filter (fun e => e.1 ≠ n) }
    else
      Except.ok t1
  | none => Except.error t

/-- The `Person` columns the index reads (`models.Person`). -/
structure Person where
  id : Nat
  title : Option String
  first_name : Option String
  middle_name : Option String
  last_name : Option String
  suffix : Option String
deriving Repr, DecidableEq

/-- Python truthiness of an optional string column: `None` and `''` are
falsy, every other string is truthy. -/
def truthy : Option String → Bool
  | some s => !s.isEmpty
  | none => false

/-- `models.Person.full_name`: space-join of the non-`None` (even empty)
title/first/middle/last values, with `, suffix` appended when the suffix
is truthy. -/
def Person.full_name (p : Person) : String :=
  String.intercalate " "
      ([p.title, p.first_name, p.middle_name, p.last_name].filterMap (fun o => o))
    ++ (if truthy p.suffix then ", " ++ p.suffix.getD "" else "")

/-- One `if person.attr: self._add_name(person.attr, value_dict)` line of
`add_person`. -/
def addStep (t : Trie) (attr : Option String) (vd : Nat) : Trie :=
  if truthy attr then addName t (attr.getD "") vd else t

/-- `FastTrieLookup.add_person(person)`: build the single
`value_dict = {person.id: person.full_name}` object once, then add every
truthy attribute with that same object. -/
def addPerson (t : Trie) (p : Person) : Trie :=
  let ta := t.alloc [(p.id, p.full_name)]
  addStep (addStep (addStep (addStep (addStep ta.1 p.title ta.2)
    p.first_name ta.2) p.middle_name ta.2) p.last_name ta.2) p.suffix ta.2

/-- One `if person.attr: self._delete_value_for_name(person.attr, person.id)`
line of `remove_person`; a prior `KeyError` aborts the rest. -/
def removeStep (acc : Except Trie Trie) (attr : Option String) (key : Nat) :
    Except Trie Trie :=
  match acc with
  | Except.error t => Except.error t
  | Except.ok t => if truthy attr then delName t (attr.getD "") key else Except.ok t

/-- `FastTrieLookup.remove_person(person)`: delete every truthy attribute
token in attribute order; a `KeyError` leaves the partially-modified
state behind (carried in `.error`). -/
def removePerson (t : Trie) (p : Person) : Except Trie Trie :=
  removeStep (removeStep (removeStep (removeStep (removeStep
    (Except.ok t) p.title p.id) p.first_name p.id) p.middle_name p.id)
    p.last_name p.id) p.suffix p.id

/-- The state an aborted or completed removal leaves behind. -/
def exceptState : Except Trie Trie → Trie
  | Except.ok t => t
  | Except.error t => t

/-- `FastTrieLookup.get_persons_by_prefix(prefix)`: the value dicts of
every trie entry whose folded token starts with the folded argument. -/
def getPersonsByPfx (t : Trie) (pq : String) : List Dict :=
  let pl := strLower pq
  (t.entries.filter (fun e => strIsPfx pl e.1)).map (fun e => t.heapGet e.2)

/-- `ContactBookDB._find_person_details_by_prefix(prefix)`: merge the
matching value dicts into one fresh dict (`merged = {}` then
`merged.update(d)` per dict), then list its items — each item is a
`FastLookupValue(id, full_name)`. -/
def findByPfx (t : Trie) (w : String) : Dict :=
  (getPersonsByPfx t w).foldl dictUpdate []

/-- Membership in a Python `set` of `FastLookupValue`s: `__eq__` and
`__hash__` consider only the `id` field. -/
def flvElem (x : Nat × String) (s : List (Nat × String)) : Bool :=
  s.any (fun y => y.1 = x.1)

/-- `set(l)` over `FastLookupValue`s: deduplicate by id, keeping the
first representative. -/
def flvSetOf (l : List (Nat × String)) : List (Nat × String) :=
  l.foldl (fun acc x => if flvElem x acc then acc else acc ++ [x]) []

/-- `s.intersection(u)` over `FastLookupValue` sets: membership is by id
alone. -/
def flvInter (s u : List (Nat × String)) : List (Nat × String) :=
  s.filter (fun x => flvElem x u)

/-- `ContactBookDB.find_person_details_by_name(name)`: zero/one-word
queries go through `_find_person_details_by_prefix(name)` with the whole
string; multi-word queries intersect the per-word sets; an all-whitespace
non-empty `name` reaches `set.intersection(*[])`, a `TypeError`
(modelled as `.error ()`). -/
def find_person_details_by_name (t : Trie) (name : String) :
    Except Unit (List (Nat × String)) :=
  if name.isEmpty || (pySplit name).length = 1 then
    Except.ok (findByPfx t name)
  else
    match (pySplit name).map (fun w => flvSetOf (findByPfx t w)) with
    | [] => Except.error ()
    | s :: rest => Except.ok (rest.foldl flvInter s)

/-- The persistent store as seen by the synchronizer: the persons table. -/
structure Store where
  persons : List Person
deriving Repr, DecidableEq

/-- `session.query(Person).get(pid)`. -/
def Store.getPerson (st : Store) (pid : Nat) : Option Person :=
  st.persons.find? (fun p => p.id = pid)

/-- `ContactBookDB.delete_person(person_id)`: missing id raises
`NoSuchObjectFound` before touching the index; otherwise
`fast_trie_lookup.remove_person(person)` runs *before* the store delete,
and a `KeyError` from it aborts the store delete (the session is closed
uncommitted) while keeping whatever the removal already did to the index. -/
def delete_person (st : Store) (t : Trie) (pid : Nat) :
    Except (Store × Trie) (Store × Trie) :=
  match st.getPerson pid with
  | none => Except.error (st, t)
  | some p =>
    match removePerson t p with
    | Except.error t1 => Except.error (st, t1)
    | Except.ok t1 =>
      Except.ok (⟨st.persons.filter (fun q => q.id ≠ pid)⟩, t1)

/-- `ContactBookDB.save_object(obj)` for a `Person`: read the
pre-mutation row through a *fresh session* (`old_person`), raising
`NoSuchObjectFound` if the id is missing; then
`fast_trie_lookup.remove_person(old_person)`, then the store merge, then
`fast_trie_lookup.add_person(obj)`. -/
def save_object (st : Store) (t : Trie) (obj : Person) :
    Except (Store × Trie) (Store × Trie) :=
  match st.getPerson obj.id with
  | none => Except.error (st, t)
  | some old =>
    match removePerson t old with
    | Except.error t1 => Except.error (st, t1)
    | Except.ok t1 =>
      Except.ok (⟨st.persons.map (fun q => if q.id = obj.id then obj else q)⟩,
        addPerson t1 obj)

/-- `ContactBookDB.create_person(...)`: requires at least one of
first/middle/last to be truthy (else `ValueError` before any index
write); on success the row is stored and `add_person` runs. -/
def create_person (st : Store) (t : Trie) (p : Person) :
    Except (Store × Trie) (Store × Trie) :=
  if truthy p.first_name || truthy p.middle_name || truthy p.last_name then
    Except.ok (⟨st.persons ++ [p]⟩, addPerson t p)
  else
    Except.error (st, t)

/-- `init_lookup_trie_with_existing_persons()`: `add_person` for every
stored person, *onto whatever trie state already exists* (the function
never clears the trie — the repository's own test clears it by hand
before re-initialising). -/
def init_lookup_trie (st : Store) (t : Trie) : Trie :=
  st.persons.foldl addPerson t

/-- The non-`None` name attributes of a person. -/
def nonNullAttrs (p : Person) : List String :=
  [p.title, p.first_name, p.middle_name, p.last_name, p.suffix].filterMap (fun o => o)

/-- The truthy name attributes of a person, in `add_person` order: these
are exactly the attributes that contribute a token. -/
def truthyAttrs (p : Person) : List String :=
  (if truthy p.title then [p.title.getD ""] else [])
    ++ (if truthy p.first_name then [p.first_name.getD ""] else [])
    ++ (if truthy p.middle_name then [p.middle_name.getD ""] else [])
    ++ (if truthy p.last_name then [p.last_name.getD ""] else [])
    ++ (if truthy p.suffix then [p.suffix.getD ""] else [])

/-- The index holds the pair `(k, v)` under folded token `n`. -/
abbrev hasPair (t : Trie) (n : String) (k : Nat) (v : String) : Prop :=
  ∃ a, (n, a) ∈ t.entries ∧ (k, v) ∈ t.heapGet a

/-- Whether a query outcome contains an entry for person id `k` (a
failed query contains nobody). -/
def hasId (r : Except Unit (List (Nat × String))) (k : Nat) : Bool :=
  (r.toOption.getD []).any (fun x => x.1 = k)

/-- Index states reachable from empty by `add_person` / `remove_person`
under the caller discipline the source assumes: every added person comes
from `create_person` (so one of first/middle/last is truthy), ids are
store-assigned and never reused, and only currently-added persons are
removed (with the same projection that was added).  `added` are the
currently indexed projections, `ever` everyone ever added.  A removal
that hits the `KeyError` path leaves its partial state behind. -/
inductive Reachable : Trie → List Person → List Person → Prop where
  | init : Reachable Trie.empty [] []
  | add {t added ever q} : Reachable t added ever →
      (∀ r ∈ ever, r.id ≠ q.id) →
      (truthy q.first_name || truthy q.middle_name || truthy q.last_name) = true →
      Reachable (addPerson t q) (q :: added) (q :: ever)
  | rem {t added ever p} : Reachable t added ever → p ∈ added →
      Reachable (exceptState (removePerson t p))
        (added.filter (fun r => r.id ≠ p.id)) ever

/-- Person 1 "Ab Cd": first name "Ab", last name "Cd". -/
def pA : Person := ⟨1, none, some "Ab", none, some "Cd", none⟩

/-- Person 2 "Ab": first name "Ab" only. -/
def pB : Person := ⟨2, none, some "Ab", none, none, none⟩

/-- The index after adding person 1 then person 2: person 1's shared
`value_dict` object sits under both "ab" and "cd", and person 2's
insertion under "ab" mutates that shared object. -/
def tAB : Trie := addPerson (addPerson Trie.empty pA) pB

/-- Person 1 "Abc abc": first and last name fold to the same token. -/
def pDup : Person := ⟨1, none, some "Abc", none, some "abc", none⟩

/-- The store and index holding only `pDup`. -/
def stDup : Store := ⟨[pDup]⟩

/-- The index state with `pDup` added. -/
def tDup : Trie := addPerson Trie.empty pDup

/-- Person 1 whose first name contains a space. -/
def pSp : Person := ⟨1, none, some "Ab Cd", none, none, none⟩

/-- The index with just `pSp`. -/
def tSp : Trie := addPerson Trie.empty pSp

/-- An index state holding token "abc" with id 1 only. -/
def tOne : Trie := ⟨[("abc", 0)], [(0, [(1, "X")])], 1⟩

/-- Person 99 "Zz", present only in a stale index. -/
def pZ : Person := ⟨99, none, some "Zz", none, none, none⟩

/-- Person 1 "Ab", the only stored person. -/
def pAb : Person := ⟨1, none, some "Ab", none, none, none⟩

/-- Person 2 "Ab Ef". -/
def pBE : Person := ⟨2, none, some "Ab", none, some "Ef", none⟩

/-- The key list of a Python dict. -/
def dictKeys (d : Dict) : List Nat := d.map (fun kv => kv.1)

/-- Old projection for the `save_object_sync` witness. -/
def pWold : Person := ⟨1, none, some "A", none, none, none⟩

/-- New projection for the `save_object_sync` witness. -/
def pWnew : Person := ⟨1, none, some "B", none, none, none⟩

/-- Replaying the store's own `create_person` calls one after the other,
threading store and index. -/
def replayCreates : List Person → Store → Trie → Except (Store × Trie) (Store × Trie)
  | [], st, t => Except.ok (st, t)
  | p :: ps, st, t =>
    match create_person st t p with
    | Except.error e => Except.error e
    | Except.ok (st1, t1) => replayCreates ps st1 t1

/-- `self.trie.values(prefix)` with the state threaded through every
step the Python code performs — each step only reads the heap. -/
def valuesST (t : Trie) (pq : String) : Trie × List Dict :=
  (t.entries.filter (fun e => strIsPfx (strLower pq) e.1)).foldl
    (fun acc e => (acc.1, acc.2 ++ [acc.1.heapGet e.2])) (t, [])

/-- `_find_person_details_by_prefix`, state threaded: the `merged`
dict is a fresh local object (`merged = {}`), and `merged.update(d)`
copies pair contents without installing any reference into the trie. -/
def findByPfxST (t : Trie) (w : String) : Trie × Dict :=
  ((valuesST t w).1, (valuesST t w).2.foldl dictUpdate [])

/-- `find_person_details_by_name`, state threaded through each per-word
lookup in order. -/
def findByNameST (t : Trie) (name : String) :
    Trie × Except Unit (List (Nat × String)) :=
  if name.isEmpty || (pySplit name).length = 1 then
    ((findByPfxST t name).1, Except.ok (findByPfxST t name).2)
  else
    let r := (pySplit name).foldl
      (fun acc w =>
        ((findByPfxST acc.1 w).1, acc.2 ++ [flvSetOf (findByPfxST acc.1 w).2]))
      (t, [])
    match r.2 with
    | [] => (r.1, Except.error ())
    | s :: rest => (r.1, Except.ok (rest.foldl flvInter s))

/-- The index carries attribute `o` of person `p`: whenever the
attribute is truthy, the folded token maps `p.id` to `p.full_name`. -/
abbrev attrIndexed (t : Trie) (p : Person) (o : Option String) : Prop :=
  truthy o = true → hasPair t (strLower (o.getD "")) p.id p.full_name

/-- All five attributes of `p` are carried by the index (invariant I1 of
the spec, per person). -/
abbrev personIndexed (t : Trie) (p : Person) : Prop :=
  attrIndexed t p p.title ∧ attrIndexed t p p.first_name ∧
  attrIndexed t p p.middle_name ∧ attrIndexed t p p.last_name ∧
  attrIndexed t p p.suffix

/-- Structural well-formedness of the index state, relative to the list
`ever` of projections ever added: trie keys are unique, heap addresses
are below the allocation counter, every entry's address is backed by a
heap cell, and every pair in any heap dict is the id and (then-current)
full name of some projection ever added. -/
structure InvCore (t : Trie) (ever : List Person) : Prop where
  names_nodup : (t.entries.map (fun e => e.1)).Nodup
  next_big : ∀ c ∈ t.heap, c.1 < t.next
  dom : ∀ e ∈ t.entries, ∃ c ∈ t.heap, c.1 = e.2
  coh : ∀ c ∈ t.heap, ∀ kv ∈ c.2, ∃ r ∈ ever, r.id = kv.1 ∧ kv.2 = r.full_name

/-- The full invariant that every reachable index state satisfies. -/
structure IndexInv (t : Trie) (added ever : List Person) : Prop where
  core : InvCore t ever
  complete : ∀ p ∈ added, personIndexed t p
  sub : ∀ p ∈ added, p ∈ ever
  ids_nodup : (ever.map (fun r => r.id)).Nodup
  tokened : ∀ p ∈ added,
    (truthy p.first_name || truthy p.middle_name || truthy p.last_name) = true

/-- C1, code bug: in the reachable state `tAB`, the single-word query
"cd" returns person 2's id although no attribute of person 2 starts with
"cd" (case-insensitively) — the `value_dict` aliasing of `add_person`
leaks person 2 into the "cd" entry. -/
theorem soundness_violated_eval :
    Reachable tAB [pB, pA] [pB, pA] ∧
    hasId (find_person_details_by_name tAB "cd") 2 = true ∧
    (nonNullAttrs pB).all
        (fun v => !(strIsPfx (strLower "cd") (strLower v))) = true :=
  ⟨Reachable.add (Reachable.add Reachable.init (by simp) (by decide))
      (by simp [pA, pB]) (by decide),
    by decide, by decide⟩

/-- C3, code bug: for the two-word query "ab cd" on the same state,
person 2's id is in the result although no attribute of person 2 starts
with "cd" — the claimed conjunction ("every word matches some attribute
of that person") fails, for the same aliasing reason. -/
theorem conjunction_violated_eval :
    (pySplit "ab cd").length = 2 ∧
    hasId (find_person_details_by_name tAB "ab cd") 2 = true ∧
    (nonNullAttrs pB).all
        (fun v => !(strIsPfx (strLower "cd") (strLower v))) = true := by
  refine ⟨by decide, by decide, by decide⟩

/-- C4, code bug: adding `pDup` to the empty index and removing it again
raises `KeyError` — the shared token is inserted once but removed twice,
and the second `_delete_value_for_name` finds the trie entry gone. -/
theorem roundtrip_keyerror_eval :
    strLower (pDup.first_name.getD "") = strLower (pDup.last_name.getD "") ∧
    removePerson (addPerson Trie.empty pDup) pDup
      = Except.error ⟨[], [(0, [])], 1⟩ := by
  refine ⟨by decide, by decide⟩

/-- C9, code bug: `delete_person` on `pDup` fails (the `KeyError` above
aborts the store delete), yet the index has already lost the "abc"
entry: the failed operation does not leave the index unchanged. -/
theorem delete_partial_index_loss_eval :
    delete_person stDup tDup 1 = Except.error (stDup, ⟨[], [(0, [])], 1⟩) ∧
    (⟨[], [(0, [])], 1⟩ : Trie) ≠ tDup ∧
    findByPfx (⟨[], [(0, [])], 1⟩ : Trie) "abc" ≠ findByPfx tDup "abc" := by
  refine ⟨by decide, by decide, by decide⟩

/-- C2, counterexample to the claim as stated: "ab c" is a
case-insensitive prefix of the indexed person's non-null attribute
"Ab Cd", yet `findByName("ab c")` is empty — the query splits on
whitespace and the word "c" matches no token. -/
theorem completeness_multiword_attr_cex :
    Reachable tSp [pSp] [pSp] ∧
    "Ab Cd" ∈ nonNullAttrs pSp ∧
    strIsPfx (strLower "ab c") (strLower "Ab Cd") = true ∧
    find_person_details_by_name tSp "ab c" = Except.ok [] :=
  ⟨Reachable.add Reachable.init (by simp) (by decide),
    by decide, by decide, by decide⟩

/-- C5, counterexample: removing id 2 under token "abc" — the entry
exists but holds no mapping for id 2 — succeeds silently
(`values.pop(key, None)`), leaving the state untouched, instead of
raising. -/
theorem remove_absent_id_silent_cex :
    (tOne.heapGet 0).all (fun kv => kv.1 ≠ 2) = true ∧
    delName tOne "abc" 2 = Except.ok tOne := by
  refine ⟨by decide, by decide⟩

/-- C6, counterexample: the whitespace-only query " " splits into zero
words and reaches `set.intersection(*[])`, a `TypeError` — it does not
return everyone. -/
theorem whitespace_query_raises_cex :
    find_person_details_by_name tOne " " = Except.error () ∧
    tOne.entries ≠ [] := by
  refine ⟨by decide, by decide⟩

theorem mem_dictKeys_iff {d : Dict} {k : Nat} :
    k ∈ dictKeys d ↔ ∃ v, (k, v) ∈ d := by
  unfold dictKeys
  constructor
  · intro h
    rcases List.mem_map.mp h with ⟨⟨a, b⟩, hab, rfl⟩
    exact ⟨b, hab⟩
  · rintro ⟨v, hv⟩
    exact List.mem_map.mpr ⟨(k, v), hv, rfl⟩

theorem dictKeys_dictSet (d : Dict) (k : Nat) (v : String) :
    dictKeys (dictSet d k v)
      = if d.any (fun kv => kv.1 = k) then dictKeys d else dictKeys d ++ [k] := by
  unfold dictSet dictKeys
  split
  · rw [List.map_map]
    refine List.map_congr_left (fun kv _ => ?_)
    by_cases h : kv.1 = k <;> simp [h]
  · simp

theorem mem_dictKeys_dictSet {d : Dict} {k : Nat} {v : String} {k0 : Nat} :
    k0 ∈ dictKeys (dictSet d k v) ↔ k0 ∈ dictKeys d ∨ k0 = k := by
  rw [dictKeys_dictSet]
  split
  next h =>
    rcases List.any_eq_true.mp h with ⟨kv, hkv, he⟩
    have he2 : kv.1 = k := of_decide_eq_true he
    have hk : k ∈ dictKeys d := List.mem_map.mpr ⟨kv, hkv, he2⟩
    constructor
    · exact Or.inl
    · rintro (h0 | rfl)
      · exact h0
      · exact hk
  next _ =>
    simp [List.mem_append]

theorem dictKeys_cons {kv : Nat × String} {e : Dict} :
    dictKeys (kv :: e) = kv.1 :: dictKeys e := rfl

theorem mem_dictKeys_dictUpdate {k0 : Nat} :
    ∀ (e d : Dict), k0 ∈ dictKeys (dictUpdate d e)
      ↔ k0 ∈ dictKeys d ∨ k0 ∈ dictKeys e := by
  intro e
  induction e with
  | nil => intro d; simp [dictUpdate, dictKeys]
  | cons kv e ih =>
    intro d
    have hstep : dictUpdate d (kv :: e) = dictUpdate (dictSet d kv.1 kv.2) e := rfl
    rw [hstep, ih, mem_dictKeys_dictSet, dictKeys_cons, List.mem_cons]
    tauto

theorem mem_dictKeys_mergeFold {k0 : Nat} :
    ∀ (ds : List Dict) (acc : Dict),
      k0 ∈ dictKeys (ds.foldl dictUpdate acc)
        ↔ k0 ∈ dictKeys acc ∨ ∃ d ∈ ds, k0 ∈ dictKeys d := by
  intro ds
  induction ds with
  | nil => intro acc; simp
  | cons d ds ih =>
    intro acc
    rw [List.foldl_cons, ih, mem_dictKeys_dictUpdate]
    constructor
    · rintro ((h | h) | ⟨d1, hd1, h⟩)
      · exact Or.inl h
      · exact Or.inr ⟨d, List.mem_cons_self _ _, h⟩
      · exact Or.inr ⟨d1, List.mem_cons_of_mem _ hd1, h⟩
    · rintro (h | ⟨d1, hd1, h⟩)
      · exact Or.inl (Or.inl h)
      · rcases List.mem_cons.mp hd1 with rfl | h1
        · exact Or.inl (Or.inr h)
        · exact Or.inr ⟨d1, h1, h⟩

theorem strIsPfx_strLower_empty (s : String) : strIsPfx (strLower "") s = true := rfl

/-- C5, amended: `_delete_value_for_name` raises `KeyError` exactly when
the folded token has no trie entry at all; when the entry exists, even
without the id, the operation succeeds. -/
theorem delName_error_iff_token_absent :
    ∀ (t : Trie) (name : String) (key : Nat),
      (∃ e, delName t name key = Except.error e)
        ↔ t.lookupAddr (strLower name) = none := by
  intro t name key
  constructor
  · rintro ⟨e, he⟩
    cases h : t.lookupAddr (strLower name) with
    | none => rfl
    | some a =>
      simp only [delName, h] at he
      split at he <;> exact absurd he (by simp)
  · intro h
    exact ⟨t, by simp only [delName, h]⟩

/-- C6, amended: the empty-string query takes the single-prefix path and
returns exactly the empty-prefix lookup, which contains precisely the
ids present in some entry's value dict (everyone currently indexed); a
non-empty query splitting into zero words (all whitespace) raises
`TypeError` instead. -/
theorem empty_query_returns_everyone :
    ∀ t : Trie,
      (find_person_details_by_name t "" = Except.ok (findByPfx t "")) ∧
      (∀ k : Nat,
        (∃ e ∈ t.entries, ∃ v, (k, v) ∈ t.heapGet e.2)
          ↔ ∃ v, (k, v) ∈ findByPfx t "") ∧
      (∀ s : String, ¬ s = "" → pySplit s = [] →
        find_person_details_by_name t s = Except.error ()) := by
  intro t
  have hds : getPersonsByPfx t "" = t.entries.map (fun e => t.heapGet e.2) := by
    simp only [getPersonsByPfx, strIsPfx_strLower_empty]
    rw [List.filter_true]
  refine ⟨?_, ?_, ?_⟩
  · have hemp : ("" : String).isEmpty = true := rfl
    simp [find_person_details_by_name, hemp]
  · intro k
    constructor
    · rintro ⟨e, he, v, hv⟩
      refine mem_dictKeys_iff.mp ?_
      unfold findByPfx
      rw [mem_dictKeys_mergeFold, hds]
      exact Or.inr ⟨t.heapGet e.2, List.mem_map.mpr ⟨e, he, rfl⟩,
        mem_dictKeys_iff.mpr ⟨v, hv⟩⟩
    · rintro ⟨v, hv⟩
      have hk : k ∈ dictKeys (findByPfx t "") := mem_dictKeys_iff.mpr ⟨v, hv⟩
      unfold findByPfx at hk
      rw [mem_dictKeys_mergeFold, hds] at hk
      rcases hk with h | ⟨d, hd, hkd⟩
      · simp [dictKeys] at h
      · rcases List.mem_map.mp hd with ⟨e, he, rfl⟩
        exact ⟨e, he, mem_dictKeys_iff.mp hkd⟩
  · intro s hne hsplit
    have hemp : s.isEmpty = false := by
      rcases h : s.isEmpty with _ | _
      · rfl
      · exact absurd (String.isEmpty_iff s |>.mp h) hne
    simp [find_person_details_by_name, hemp, hsplit]

theorem empty_query_witness :
    find_person_details_by_name tOne "" = Except.ok (findByPfx tOne "") ∧
    find_person_details_by_name tOne " " = Except.error () :=
  ⟨(empty_query_returns_everyone tOne).1,
    (empty_query_returns_everyone tOne).2.2 " " (by decide) (by decide)⟩

/-- C7: `save_object` on a `Person` reads the pre-mutation projection
from the store (never from the argument object), removes all of the old
projection's tokens, then adds all of the new projection's tokens; in
the concrete mutation scenario (firstName "Abcd" → "Xyzzy", other
attribute "Hijk"), the person leaves `findByName("ab")` and enters
`findByName("xy")`. -/
theorem save_object_sync :
    (∀ (st : Store) (t : Trie) (obj old : Person) (t1 : Trie),
        st.getPerson obj.id = some old → removePerson t old = Except.ok t1 →
        save_object st t obj = Except.ok
          (⟨st.persons.map (fun q => if q.id = obj.id then obj else q)⟩,
            addPerson t1 obj)) ∧
    (∃ st2 t2,
      save_object ⟨[⟨1, none, some "Abcd", none, some "Hijk", none⟩]⟩
          (addPerson Trie.empty ⟨1, none, some "Abcd", none, some "Hijk", none⟩)
          ⟨1, none, some "Xyzzy", none, some "Hijk", none⟩
        = Except.ok (st2, t2) ∧
      hasId (find_person_details_by_name
        (addPerson Trie.empty ⟨1, none, some "Abcd", none, some "Hijk", none⟩)
        "ab") 1 = true ∧
      hasId (find_person_details_by_name t2 "ab") 1 = false ∧
      hasId (find_person_details_by_name t2 "xy") 1 = true) := by
  constructor
  · intro st t obj old t1 h1 h2
    simp [save_object, h1, h2]
  · exact ⟨_, _, rfl, by decide, by decide, by decide⟩

theorem save_object_sync_witness :
    save_object ⟨[pWold]⟩ (addPerson Trie.empty pWold) pWnew
      = Except.ok
        (⟨[pWold].map (fun q => if q.id = pWnew.id then pWnew else q)⟩,
          addPerson ⟨[], [(0, [])], 1⟩ pWnew) :=
  save_object_sync.1 ⟨[pWold]⟩ (addPerson Trie.empty pWold) pWnew pWold
    ⟨[], [(0, [])], 1⟩ (by decide) (by decide)

theorem replayCreates_ok :
    ∀ (ps stp : List Person) (t : Trie),
      (∀ p ∈ ps,
        (truthy p.first_name || truthy p.middle_name || truthy p.last_name) = true) →
      replayCreates ps ⟨stp⟩ t = Except.ok (⟨stp ++ ps⟩, ps.foldl addPerson t) := by
  intro ps
  induction ps with
  | nil => intro stp t _; simp [replayCreates]
  | cons p ps ih =>
    intro stp t h
    have hp := h p (List.mem_cons_self _ _)
    have hrest := fun q hq => h q (List.mem_cons_of_mem _ hq)
    simp only [replayCreates, create_person, hp, if_true, List.foldl_cons]
    rw [ih (stp ++ [p]) (addPerson t p) hrest]
    simp

/-- C8, amended: `init_lookup_trie_with_existing_persons` does not clear
the index — it folds `add_person` over the stored persons on top of
whatever index state exists; started from the *empty* index it produces
exactly the store/index pair obtained by replaying the store's
`create_person` calls incrementally, in the store's enumeration order. -/
theorem warm_start_from_empty_matches_incremental :
    ∀ (st : Store) (t : Trie),
      init_lookup_trie st t = st.persons.foldl addPerson t ∧
      ((∀ p ∈ st.persons,
          (truthy p.first_name || truthy p.middle_name || truthy p.last_name)
            = true) →
        replayCreates st.persons ⟨[]⟩ Trie.empty
          = Except.ok (st, init_lookup_trie st Trie.empty)) := by
  intro st t
  obtain ⟨ps⟩ := st
  refine ⟨rfl, fun h => ?_⟩
  rw [replayCreates_ok ps [] Trie.empty h]
  simp [init_lookup_trie]

theorem warm_start_witness :
    replayCreates [pAb] ⟨[]⟩ Trie.empty
      = Except.ok (⟨[pAb]⟩, init_lookup_trie ⟨[pAb]⟩ Trie.empty) :=
  (warm_start_from_empty_matches_incremental ⟨[pAb]⟩ Trie.empty).2 (by decide)

theorem valuesST_aux :
    ∀ (l : List (String × Nat)) (t : Trie) (acc : List Dict),
      l.foldl (fun acc e => (acc.1, acc.2 ++ [acc.1.heapGet e.2])) (t, acc)
        = (t, acc ++ l.map (fun e => t.heapGet e.2)) := by
  intro l
  induction l with
  | nil => intro t acc; simp
  | cons e l ih =>
    intro t acc
    rw [List.foldl_cons, ih]
    simp

theorem valuesST_spec (t : Trie) (pq : String) :
    valuesST t pq = (t, getPersonsByPfx t pq) := by
  unfold valuesST getPersonsByPfx
  rw [valuesST_aux]
  simp

theorem findByPfxST_spec (t : Trie) (w : String) :
    findByPfxST t w = (t, findByPfx t w) := by
  unfold findByPfxST findByPfx
  rw [valuesST_spec]

theorem wordFoldST_spec :
    ∀ (ws : List String) (t : Trie) (acc : List (List (Nat × String))),
      ws.foldl
        (fun acc w =>
          ((findByPfxST acc.1 w).1, acc.2 ++ [flvSetOf (findByPfxST acc.1 w).2]))
        (t, acc)
        = (t, acc ++ ws.map (fun w => flvSetOf (findByPfx t w))) := by
  intro ws
  induction ws with
  | nil => intro t acc; simp
  | cons w ws ih =>
    intro t acc
    rw [List.foldl_cons]
    have h1 : (findByPfxST t w).1 = t := by rw [findByPfxST_spec]
    have h2 : (findByPfxST t w).2 = findByPfx t w := by rw [findByPfxST_spec]
    rw [h1, h2, ih]
    simp

/-- C10: evaluating `findByName` (with every state access threaded
explicitly) returns the state unchanged and the same answer as the plain
query function, so a query followed by any operation behaves exactly as
that operation alone. -/
theorem query_readonly :
    ∀ (t : Trie) (name : String),
      (findByNameST t name).1 = t ∧
      (findByNameST t name).2 = find_person_details_by_name t name ∧
      ∀ p : Person, addPerson (findByNameST t name).1 p = addPerson t p := by
  intro t name
  have key : findByNameST t name = (t, find_person_details_by_name t name) := by
    unfold findByNameST find_person_details_by_name
    split
    · rw [findByPfxST_spec]
    · rw [wordFoldST_spec]
      simp
      cases List.map (fun w => flvSetOf (findByPfx t w)) (pySplit name) <;> rfl
  refine ⟨by rw [key], by rw [key], fun p => by rw [key]⟩

/-- C8, counterexample: (i) `init_lookup_trie_with_existing_persons`
does not clear — run over a store containing only person 1 but starting
from an index still holding person 99, the stale person is still
returned, unlike the index built from empty; (ii) even from empty, the
result is order-dependent: adding persons 1 and 2 in the two orders
answers the query "cd" differently (the shared-dict aliasing makes the
"cd" entry absorb person 2 in one order only). -/
theorem warmstart_no_clear_cex :
    (hasId (find_person_details_by_name
        (init_lookup_trie ⟨[pAb]⟩ (addPerson Trie.empty pZ)) "zz") 99 = true ∧
      hasId (find_person_details_by_name
        (init_lookup_trie ⟨[pAb]⟩ Trie.empty) "zz") 99 = false) ∧
    (hasId (find_person_details_by_name
        (addPerson (addPerson Trie.empty pA) pBE) "cd") 2 = true ∧
      hasId (find_person_details_by_name
        (addPerson (addPerson Trie.empty pBE) pA) "cd") 2 = false) := by
  refine ⟨⟨by decide, by decide⟩, ⟨by decide, by decide⟩⟩

theorem mem_dictSet_self (d : Dict) (k : Nat) (v : String) :
    (k, v) ∈ dictSet d k v := by
  unfold dictSet
  split
  next h =>
    rcases List.any_eq_true.mp h with ⟨kv, hkv, he⟩
    have he2 : kv.1 = k := of_decide_eq_true he
    exact List.mem_map.mpr ⟨kv, hkv, by rw [if_pos he2]⟩
  next _ => exact List.mem_append.mpr (Or.inr (by simp))

theorem mem_dictSet_of_ne {d : Dict} {k : Nat} {v : String} {k0 : Nat}
    {v0 : String} (h : (k0, v0) ∈ d) (hne : k0 ≠ k) :
    (k0, v0) ∈ dictSet d k v := by
  unfold dictSet
  split
  next _ =>
    refine List.mem_map.mpr ⟨(k0, v0), h, ?_⟩
    rw [if_neg (by simpa using hne)]
  next _ => exact List.mem_append.mpr (Or.inl h)

theorem mem_dictSet_elim {d : Dict} {k : Nat} {v : String} {kv : Nat × String}
    (h : kv ∈ dictSet d k v) : kv ∈ d ∨ kv = (k, v) := by
  unfold dictSet at h
  split at h
  next _ =>
    rcases List.mem_map.mp h with ⟨x, hx, he⟩
    by_cases hxk : x.1 = k
    · rw [if_pos hxk] at he
      exact Or.inr he.symm
    · rw [if_neg hxk] at he
      exact Or.inl (he ▸ hx)
  next _ =>
    rcases List.mem_append.mp h with h1 | h1
    · exact Or.inl h1
    · right
      simpa using h1

theorem dictUpdate_single (d : Dict) (k : Nat) (v : String) :
    dictUpdate d [(k, v)] = dictSet d k v := rfl

theorem mem_dictPop_of_ne {d : Dict} {k k0 : Nat} {v0 : String}
    (h : (k0, v0) ∈ d) (hne : k0 ≠ k) : (k0, v0) ∈ dictPop d k :=
  List.mem_filter.mpr ⟨h, by simpa using hne⟩

theorem mem_of_mem_dictPop {d : Dict} {k : Nat} {kv : Nat × String}
    (h : kv ∈ dictPop d k) : kv ∈ d := (List.mem_filter.mp h).1

theorem mem_dictUpdate_elim :
    ∀ (e d : Dict) (kv : Nat × String), kv ∈ dictUpdate d e → kv ∈ d ∨ kv ∈ e := by
  intro e
  induction e with
  | nil => intro d kv h; exact Or.inl h
  | cons x e ih =>
    intro d kv h
    have hstep : dictUpdate d (x :: e) = dictUpdate (dictSet d x.1 x.2) e := rfl
    rw [hstep] at h
    rcases ih _ kv h with h1 | h1
    · rcases mem_dictSet_elim h1 with h2 | h2
      · exact Or.inl h2
      · right
        rw [h2]
        exact List.mem_cons_self _ _
    · exact Or.inr (List.mem_cons_of_mem _ h1)

theorem mem_mergeFold_elim :
    ∀ (ds : List Dict) (acc : Dict) (kv : Nat × String),
      kv ∈ ds.foldl dictUpdate acc → kv ∈ acc ∨ ∃ d ∈ ds, kv ∈ d := by
  intro ds
  induction ds with
  | nil => intro acc kv h; exact Or.inl h
  | cons d ds ih =>
    intro acc kv h
    rw [List.foldl_cons] at h
    rcases ih _ kv h with h1 | ⟨d1, hd1, h1⟩
    · rcases mem_dictUpdate_elim d acc kv h1 with h2 | h2
      · exact Or.inl h2
      · exact Or.inr ⟨d, List.mem_cons_self _ _, h2⟩
    · exact Or.inr ⟨d1, List.mem_cons_of_mem _ hd1, h1⟩

theorem dictKeys_nodup_dictSet {d : Dict} {k : Nat} {v : String}
    (h : (dictKeys d).Nodup) : (dictKeys (dictSet d k v)).Nodup := by
  rw [dictKeys_dictSet]
  split
  next _ => exact h
  next hneg =>
    have hk : k ∉ dictKeys d := by
      intro hmem
      rcases mem_dictKeys_iff.mp hmem with ⟨w, hw⟩
      exact hneg (List.any_eq_true.mpr ⟨(k, w), hw, by simp⟩)
    rw [List.nodup_append]
    exact ⟨h, List.nodup_singleton k,
      fun a ha hb => hk ((List.mem_singleton.mp hb) ▸ ha)⟩

theorem dictKeys_nodup_dictUpdate :
    ∀ (e d : Dict), (dictKeys d).Nodup → (dictKeys (dictUpdate d e)).Nodup := by
  intro e
  induction e with
  | nil => intro d h; exact h
  | cons x e ih =>
    intro d h
    exact ih _ (dictKeys_nodup_dictSet h)

theorem dictKeys_nodup_mergeFold :
    ∀ (ds : List Dict) (acc : Dict), (dictKeys acc).Nodup →
      (dictKeys (ds.foldl dictUpdate acc)).Nodup := by
  intro ds
  induction ds with
  | nil => intro acc h; exact h
  | cons d ds ih =>
    intro acc h
    exact ih _ (dictKeys_nodup_dictUpdate d acc h)

theorem count_eq_one_of_mem_nodup_keys :
    ∀ (L : Dict) (k : Nat) (v : String), (dictKeys L).Nodup → (k, v) ∈ L →
      L.count (k, v) = 1 := by
  intro L
  induction L with
  | nil => intro k v _ h; simp at h
  | cons x L ih =>
    intro k v hnodup hmem
    rw [dictKeys_cons] at hnodup
    have hnd := List.nodup_cons.mp hnodup
    rcases List.mem_cons.mp hmem with rfl | h1
    · rw [List.count_cons_self]
      have hz : L.count (k, v) = 0 := by
        apply List.count_eq_zero_of_not_mem
        intro hc
        exact hnd.1 (mem_dictKeys_iff.mpr ⟨v, hc⟩)
      rw [hz]
    · rw [List.count_cons]
      have hne : (x == (k, v)) = false := by
        rw [beq_eq_false_iff_ne]
        intro he
        apply hnd.1
        rw [he]
        exact mem_dictKeys_iff.mpr ⟨v, h1⟩
      rw [hne]
      simpa using ih k v hnd.2 h1

theorem heapFind_set_self :
    ∀ (l : List (Nat × Dict)) (a : Nat) (d : Dict),
      (∃ c ∈ l, c.1 = a) →
      (l.map (fun c => if c.1 = a then (a, d) else c)).find? (fun c => c.1 = a)
        = some (a, d) := by
  intro l a d h
  induction l with
  | nil => simp at h
  | cons c l ih =>
    by_cases hc : c.1 = a
    · rw [List.map_cons, if_pos hc]
      exact List.find?_cons_of_pos _ (by simp)
    · rw [List.map_cons, if_neg hc,
        List.find?_cons_of_neg _ (by simpa using hc)]
      apply ih
      rcases h with ⟨c1, hc1, he⟩
      rcases List.mem_cons.mp hc1 with rfl | hm
      · exact absurd he hc
      · exact ⟨c1, hm, he⟩

theorem heapGet_heapSet_self {t : Trie} {a : Nat} {d : Dict}
    (h : ∃ c ∈ t.heap, c.1 = a) : (t.heapSet a d).heapGet a = d := by
  unfold Trie.heapGet Trie.heapSet
  rw [heapFind_set_self t.heap a d h]
  rfl

theorem heapFind_set_ne :
    ∀ (l : List (Nat × Dict)) (a : Nat) (d : Dict) (b : Nat), b ≠ a →
      (l.map (fun c => if c.1 = a then (a, d) else c)).find? (fun c => c.1 = b)
        = l.find? (fun c => c.1 = b) := by
  intro l a d b hne
  induction l with
  | nil => rfl
  | cons c l ih =>
    by_cases hc : c.1 = a
    · rw [List.map_cons, if_pos hc,
        List.find?_cons_of_neg _ (by simpa using Ne.symm hne),
        List.find?_cons_of_neg _ (by simp [hc]; exact Ne.symm hne)]
      exact ih
    · rw [List.map_cons, if_neg hc]
      by_cases hb : c.1 = b
      · rw [List.find?_cons_of_pos _ (by simpa using hb),
          List.find?_cons_of_pos _ (by simpa using hb)]
      · rw [List.find?_cons_of_neg _ (by simpa using hb),
          List.find?_cons_of_neg _ (by simpa using hb)]
        exact ih

theorem heapGet_heapSet_ne {t : Trie} {a b : Nat} {d : Dict} (h : b ≠ a) :
    (t.heapSet a d).heapGet b = t.heapGet b := by
  unfold Trie.heapGet Trie.heapSet
  rw [heapFind_set_ne t.heap a d b h]

theorem heapGet_alloc_self {t : Trie} {d : Dict}
    (hbig : ∀ c ∈ t.heap, c.1 < t.next) :
    (t.alloc d).1.heapGet t.next = d := by
  unfold Trie.heapGet Trie.alloc
  rw [List.find?_append]
  have h1 : t.heap.find? (fun c => c.1 = t.next) = none := by
    rw [List.find?_eq_none]
    intro c hc
    simpa using Nat.ne_of_lt (hbig c hc)
  rw [h1, Option.none_or, List.find?_cons_of_pos _ (by simp)]
  rfl

theorem heapGet_alloc_ne {t : Trie} {d : Dict} {b : Nat} (h : b ≠ t.next) :
    (t.alloc d).1.heapGet b = t.heapGet b := by
  unfold Trie.heapGet Trie.alloc
  rw [List.find?_append]
  have h2 : List.find? (fun c => c.1 = b) [(t.next, d)] = none := by
    rw [List.find?_eq_none]
    intro x hx
    rcases List.mem_singleton.mp hx with rfl
    simpa using Ne.symm h
  rw [h2, Option.or_none]

theorem exists_cell_of_mem_heapGet {t : Trie} {a : Nat} {kv : Nat × String}
    (h : kv ∈ t.heapGet a) : ∃ c ∈ t.heap, kv ∈ c.2 := by
  unfold Trie.heapGet at h
  cases hf : t.heap.find? (fun c => c.1 = a) with
  | none => rw [hf] at h; simp at h
  | some c =>
    rw [hf] at h
    exact ⟨c, List.mem_of_find?_eq_some hf, by simpa using h⟩

theorem exists_cell_of_heapGet_ne_nil {t : Trie} {a : Nat}
    (h : t.heapGet a ≠ []) : ∃ c ∈ t.heap, c.1 = a := by
  unfold Trie.heapGet at h
  cases hf : t.heap.find? (fun c => c.1 = a) with
  | none => rw [hf] at h; simp at h
  | some c =>
    refine ⟨c, List.mem_of_find?_eq_some hf, ?_⟩
    have hp := List.find?_some hf
    simpa using hp

theorem find_entry_of_mem :
    ∀ (l : List (String × Nat)) (n : String) (a : Nat),
      (l.map (fun e => e.1)).Nodup → (n, a) ∈ l →
      l.find? (fun e => e.1 = n) = some (n, a) := by
  intro l
  induction l with
  | nil => intro n a _ h; simp at h
  | cons e l ih =>
    intro n a hnodup hmem
    rw [List.map_cons] at hnodup
    have hnd := List.nodup_cons.mp hnodup
    rcases List.mem_cons.mp hmem with rfl | h1
    · exact List.find?_cons_of_pos _ (by simp)
    · have hne : ¬ (e.1 = n) := by
        intro he
        apply hnd.1
        rw [he]
        exact List.mem_map.mpr ⟨(n, a), h1, rfl⟩
      rw [List.find?_cons_of_neg _ (by simpa using hne)]
      exact ih n a hnd.2 h1

theorem lookupAddr_of_mem {t : Trie} {n : String} {a : Nat}
    (hnodup : (t.entries.map (fun e => e.1)).Nodup)
    (hmem : (n, a) ∈ t.entries) : t.lookupAddr n = some a := by
  unfold Trie.lookupAddr
  rw [find_entry_of_mem t.entries n a hnodup hmem]
  rfl

theorem mem_of_lookupAddr {t : Trie} {n : String} {a : Nat}
    (h : t.lookupAddr n = some a) : (n, a) ∈ t.entries := by
  unfold Trie.lookupAddr at h
  cases hf : t.entries.find? (fun e => e.1 = n) with
  | none => rw [hf] at h; simp at h
  | some e =>
    rw [hf] at h
    simp at h
    have he : e.1 = n := by
      have hp := List.find?_some hf
      simpa using hp
    have hm := List.mem_of_find?_eq_some hf
    have hcast : e = (n, a) := by
      cases e
      simp at he h ⊢
      exact ⟨he, h⟩
    rw [← hcast]
    exact hm

theorem lookupAddr_none_iff {t : Trie} {n : String} :
    t.lookupAddr n = none ↔ ∀ e ∈ t.entries, ¬ (e.1 = n) := by
  unfold Trie.lookupAddr
  rw [Option.map_eq_none', List.find?_eq_none]
  simp

theorem addName_eq_none {t : Trie} {s : String} {A : Nat}
    (h : t.lookupAddr (strLower s) = none) :
    addName t s A = { t with entries := t.entries ++ [(strLower s, A)] } := by
  simp only [addName, h]

theorem addName_eq_some {t : Trie} {s : String} {A a0 : Nat}
    (h : t.lookupAddr (strLower s) = some a0) :
    addName t s A = t.heapSet a0 (dictUpdate (t.heapGet a0) (t.heapGet A)) := by
  simp only [addName, h]

theorem mem_heapSet_elim {t : Trie} {a : Nat} {d : Dict} {c1 : Nat × Dict}
    (h : c1 ∈ (t.heapSet a d).heap) :
    ∃ c ∈ t.heap, c1.1 = c.1 ∧ (c1 = c ∨ c1 = (a, d)) := by
  unfold Trie.heapSet at h
  rcases List.mem_map.mp h with ⟨c, hc, he⟩
  by_cases hca : c.1 = a
  · rw [if_pos hca] at he
    exact ⟨c, hc, by rw [← he]; exact hca.symm, Or.inr he.symm⟩
  · rw [if_neg hca] at he
    exact ⟨c, hc, by rw [he], Or.inl he.symm⟩

theorem heapSet_dom {t : Trie} {a : Nat} {d : Dict} {c : Nat × Dict}
    (h : c ∈ t.heap) : ∃ c1 ∈ (t.heapSet a d).heap, c1.1 = c.1 := by
  unfold Trie.heapSet
  by_cases hca : c.1 = a
  · exact ⟨(a, d), List.mem_map.mpr ⟨c, h, by rw [if_pos hca]⟩, hca.symm⟩
  · exact ⟨c, List.mem_map.mpr ⟨c, h, by rw [if_neg hca]⟩, rfl⟩

theorem invCore_heapSet_update {t : Trie} {ever : List Person} {a0 : Nat}
    {qid : Nat} {fnq : String} (hc : InvCore t ever)
    (hq : ∃ r ∈ ever, r.id = qid ∧ fnq = r.full_name) :
    InvCore (t.heapSet a0 (dictSet (t.heapGet a0) qid fnq)) ever := by
  constructor
  · exact hc.names_nodup
  · intro c1 h1
    rcases mem_heapSet_elim h1 with ⟨c, hcm, hkey, _⟩
    rw [show (t.heapSet a0 (dictSet (t.heapGet a0) qid fnq)).next = t.next from rfl,
      hkey]
    exact hc.next_big c hcm
  · intro e he
    rcases hc.dom e he with ⟨c, hcm, hck⟩
    rcases heapSet_dom (a := a0) (d := dictSet (t.heapGet a0) qid fnq) hcm with
      ⟨c1, hc1, hk⟩
    exact ⟨c1, hc1, by rw [hk, hck]⟩
  · intro c1 h1 kv hkv
    rcases mem_heapSet_elim h1 with ⟨c, hcm, _, hor⟩
    rcases hor with he | he
    · rw [he] at hkv
      exact hc.coh c hcm kv hkv
    · rw [he] at hkv
      rcases mem_dictSet_elim (by simpa using hkv) with h2 | h2
      · rcases exists_cell_of_mem_heapGet h2 with ⟨c2, hc2, hkv2⟩
        exact hc.coh c2 hc2 kv hkv2
      · rcases hq with ⟨r, hr, hrid, hrfn⟩
        exact ⟨r, hr, by rw [h2]; exact hrid, by rw [h2]; exact hrfn⟩

theorem addName_pres {t : Trie} {ever : List Person} (s : String) {A : Nat}
    {qid : Nat} {fnq : String} (hc : InvCore t ever)
    (hA : t.heapGet A = [(qid, fnq)])
    (hq : ∃ r ∈ ever, r.id = qid ∧ fnq = r.full_name) :
    InvCore (addName t s A) ever ∧
    (addName t s A).heapGet A = [(qid, fnq)] ∧
    (∀ n k v, k ≠ qid → hasPair t n k v → hasPair (addName t s A) n k v) ∧
    (∀ n, hasPair t n qid fnq → hasPair (addName t s A) n qid fnq) ∧
    hasPair (addName t s A) (strLower s) qid fnq := by
  cases hl : t.lookupAddr (strLower s) with
  | none =>
    rw [addName_eq_none hl]
    refine ⟨?_, hA, ?_, ?_, ?_⟩
    · constructor
      · have hnotin : strLower s ∉ t.entries.map (fun e => e.1) := by
          intro hmem
          rcases List.mem_map.mp hmem with ⟨e, he, hee⟩
          exact (lookupAddr_none_iff.mp hl) e he hee
        rw [show ({ t with entries := t.entries ++ [(strLower s, A)] } : Trie).entries
            = t.entries ++ [(strLower s, A)] from rfl, List.map_append,
          List.nodup_append]
        exact ⟨hc.names_nodup, by simp,
          fun x hx hx2 => hnotin ((List.mem_singleton.mp (by simpa using hx2)) ▸ hx)⟩
      · exact hc.next_big
      · intro e he
        rcases List.mem_append.mp he with h1 | h1
        · exact hc.dom e h1
        · rcases List.mem_singleton.mp h1 with rfl
          exact exists_cell_of_heapGet_ne_nil
            (by show t.heapGet A ≠ []; rw [hA]; simp)
      · exact hc.coh
    · rintro n k v _ ⟨a, hmem, hget⟩
      exact ⟨a, List.mem_append.mpr (Or.inl hmem), hget⟩
    · rintro n ⟨a, hmem, hget⟩
      exact ⟨a, List.mem_append.mpr (Or.inl hmem), hget⟩
    · exact ⟨A, List.mem_append.mpr (Or.inr (by simp)),
        by show (qid, fnq) ∈ t.heapGet A; rw [hA]; simp⟩
  | some a0 =>
    rw [addName_eq_some hl, hA, dictUpdate_single]
    have hdom0 : ∃ c ∈ t.heap, c.1 = a0 := by
      rcases hc.dom _ (mem_of_lookupAddr hl) with ⟨c, hcm, hck⟩
      exact ⟨c, hcm, hck⟩
    refine ⟨invCore_heapSet_update hc hq, ?_, ?_, ?_, ?_⟩
    · by_cases hAa : A = a0
      · subst hAa
        rw [heapGet_heapSet_self hdom0, hA]
        simp [dictSet]
      · rw [heapGet_heapSet_ne hAa, hA]
    · rintro n k v hkne ⟨a, hmem, hget⟩
      refine ⟨a, hmem, ?_⟩
      by_cases haa : a = a0
      · subst haa
        rw [heapGet_heapSet_self hdom0]
        exact mem_dictSet_of_ne hget hkne
      · rw [heapGet_heapSet_ne haa]
        exact hget
    · rintro n ⟨a, hmem, hget⟩
      refine ⟨a, hmem, ?_⟩
      by_cases haa : a = a0
      · subst haa
        rw [heapGet_heapSet_self hdom0]
        exact mem_dictSet_self _ _ _
      · rw [heapGet_heapSet_ne haa]
        exact hget
    · refine ⟨a0, mem_of_lookupAddr hl, ?_⟩
      rw [heapGet_heapSet_self hdom0]
      exact mem_dictSet_self _ _ _

theorem addStep_pres {t : Trie} {ever : List Person} (o : Option String)
    {A : Nat} {qid : Nat} {fnq : String} (hc : InvCore t ever)
    (hA : t.heapGet A = [(qid, fnq)])
    (hq : ∃ r ∈ ever, r.id = qid ∧ fnq = r.full_name) :
    InvCore (addStep t o A) ever ∧
    (addStep t o A).heapGet A = [(qid, fnq)] ∧
    (∀ n k v, k ≠ qid → hasPair t n k v → hasPair (addStep t o A) n k v) ∧
    (∀ n, hasPair t n qid fnq → hasPair (addStep t o A) n qid fnq) ∧
    (truthy o = true → hasPair (addStep t o A) (strLower (o.getD "")) qid fnq) := by
  unfold addStep
  by_cases ho : truthy o = true
  · rw [if_pos ho]
    obtain ⟨h1, h2, h3, h4, h5⟩ := addName_pres (o.getD "") hc hA hq
    exact ⟨h1, h2, h3, h4, fun _ => h5⟩
  · rw [if_neg ho]
    exact ⟨hc, hA, fun n k v _ h => h, fun n h => h, fun h => absurd h ho⟩

theorem addPerson_pres {t : Trie} {ever : List Person} {q : Person}
    (hc : InvCore t (q :: ever)) :
    InvCore (addPerson t q) (q :: ever) ∧
    (∀ n k v, k ≠ q.id → hasPair t n k v → hasPair (addPerson t q) n k v) ∧
    personIndexed (addPerson t q) q := by
  have hA0 : (t.alloc [(q.id, q.full_name)]).1.heapGet t.next
      = [(q.id, q.full_name)] := heapGet_alloc_self hc.next_big
  have hc0 : InvCore (t.alloc [(q.id, q.full_name)]).1 (q :: ever) := by
    constructor
    · exact hc.names_nodup
    · intro c hcm
      rcases List.mem_append.mp hcm with h1 | h1
      · exact Nat.lt_succ_of_lt (hc.next_big c h1)
      · rcases List.mem_singleton.mp h1 with rfl
        exact Nat.lt_succ_self _
    · intro e he
      rcases hc.dom e he with ⟨c, hcm, hck⟩
      exact ⟨c, List.mem_append.mpr (Or.inl hcm), hck⟩
    · intro c hcm kv hkv
      rcases List.mem_append.mp hcm with h1 | h1
      · exact hc.coh c h1 kv hkv
      · rcases List.mem_singleton.mp h1 with rfl
        simp at hkv
        exact ⟨q, List.mem_cons_self _ _, by rw [hkv], by rw [hkv]⟩
  have hpres0 : ∀ n k v, hasPair t n k v →
      hasPair (t.alloc [(q.id, q.full_name)]).1 n k v := by
    rintro n k v ⟨a, hmem, hget⟩
    have hne : a ≠ t.next := by
      rcases exists_cell_of_heapGet_ne_nil (t := t) (a := a)
          (by intro hnil; rw [hnil] at hget; simp at hget) with ⟨c, hcm, hck⟩
      have hlt := hc.next_big c hcm
      rw [hck] at hlt
      exact Nat.ne_of_lt hlt
    exact ⟨a, hmem, by rw [heapGet_alloc_ne hne]; exact hget⟩
  have hqev : ∃ r ∈ q :: ever, r.id = q.id ∧ q.full_name = r.full_name :=
    ⟨q, List.mem_cons_self _ _, rfl, rfl⟩
  obtain ⟨c1, g1, p1, pq1, e1⟩ := addStep_pres q.title hc0 hA0 hqev
  obtain ⟨c2, g2, p2, pq2, e2⟩ := addStep_pres q.first_name c1 g1 hqev
  obtain ⟨c3, g3, p3, pq3, e3⟩ := addStep_pres q.middle_name c2 g2 hqev
  obtain ⟨c4, g4, p4, pq4, e4⟩ := addStep_pres q.last_name c3 g3 hqev
  obtain ⟨c5, g5, p5, pq5, e5⟩ := addStep_pres q.suffix c4 g4 hqev
  refine ⟨c5, ?_, ?_⟩
  · intro n k v hk h
    exact p5 n k v hk (p4 n k v hk (p3 n k v hk (p2 n k v hk
      (p1 n k v hk (hpres0 n k v h)))))
  · exact ⟨fun ho => pq5 _ (pq4 _ (pq3 _ (pq2 _ (e1 ho)))),
      fun ho => pq5 _ (pq4 _ (pq3 _ (e2 ho))),
      fun ho => pq5 _ (pq4 _ (e3 ho)),
      fun ho => pq5 _ (e4 ho),
      fun ho => e5 ho⟩

theorem delName_eq_none {t : Trie} {name : String} {key : Nat}
    (h : t.lookupAddr (strLower name) = none) :
    delName t name key = Except.error t := by
  simp only [delName, h]

theorem delName_eq_some {t : Trie} {name : String} {key a0 : Nat}
    (h : t.lookupAddr (strLower name) = some a0) :
    delName t name key =
      (if (dictPop (t.heapGet a0) key).isEmpty then
        Except.ok { t.heapSet a0 (dictPop (t.heapGet a0) key) with
          entries := (t.heapSet a0 (dictPop (t.heapGet a0) key)).entries.filter
            (fun e => e.1 ≠ strLower name) }
      else Except.ok (t.heapSet a0 (dictPop (t.heapGet a0) key))) := by
  simp only [delName, h]

theorem invCore_heapSet_pop {t : Trie} {ever : List Person} {a0 pid : Nat}
    (hc : InvCore t ever) :
    InvCore (t.heapSet a0 (dictPop (t.heapGet a0) pid)) ever := by
  constructor
  · exact hc.names_nodup
  · intro c1 h1
    rcases mem_heapSet_elim h1 with ⟨c, hcm, hkey, _⟩
    rw [show (t.heapSet a0 (dictPop (t.heapGet a0) pid)).next = t.next from rfl,
      hkey]
    exact hc.next_big c hcm
  · intro e he
    rcases hc.dom e he with ⟨c, hcm, hck⟩
    rcases heapSet_dom (a := a0) (d := dictPop (t.heapGet a0) pid) hcm with
      ⟨c1, hc1, hk⟩
    exact ⟨c1, hc1, by rw [hk, hck]⟩
  · intro c1 h1 kv hkv
    rcases mem_heapSet_elim h1 with ⟨c, hcm, _, hor⟩
    rcases hor with he | he
    · rw [he] at hkv
      exact hc.coh c hcm kv hkv
    · rw [he] at hkv
      have hkv2 : kv ∈ t.heapGet a0 := mem_of_mem_dictPop (by simpa using hkv)
      rcases exists_cell_of_mem_heapGet hkv2 with ⟨c2, hc2, hkv3⟩
      exact hc.coh c2 hc2 kv hkv3

theorem invCore_filter_entries {t : Trie} {ever : List Person}
    (hc : InvCore t ever) (pr : String × Nat → Bool) :
    InvCore { t with entries := t.entries.filter pr } ever := by
  constructor
  · exact List.Nodup.sublist (List.Sublist.map _ (List.filter_sublist _))
      hc.names_nodup
  · exact hc.next_big
  · intro e he
    exact hc.dom e (List.mem_of_mem_filter he)
  · exact hc.coh

theorem delName_pres {t : Trie} {ever : List Person} (name : String) (pid : Nat)
    (hc : InvCore t ever) :
    InvCore (exceptState (delName t name pid)) ever ∧
    (∀ n k v, k ≠ pid → hasPair t n k v →
      hasPair (exceptState (delName t name pid)) n k v) := by
  cases hl : t.lookupAddr (strLower name) with
  | none =>
    rw [delName_eq_none hl]
    exact ⟨hc, fun n k v _ h => h⟩
  | some a0 =>
    have hdom0 : ∃ c ∈ t.heap, c.1 = a0 := by
      rcases hc.dom _ (mem_of_lookupAddr hl) with ⟨c, hcm, hck⟩
      exact ⟨c, hcm, hck⟩
    have hget1 : ∀ (a : Nat) (k : Nat) (v : String), k ≠ pid →
        (k, v) ∈ t.heapGet a →
        (k, v) ∈ (t.heapSet a0 (dictPop (t.heapGet a0) pid)).heapGet a := by
      intro a k v hkne hget
      by_cases haa : a = a0
      · subst haa
        rw [heapGet_heapSet_self hdom0]
        exact mem_dictPop_of_ne hget hkne
      · rw [heapGet_heapSet_ne haa]
        exact hget
    rw [delName_eq_some hl]
    by_cases hemp : (dictPop (t.heapGet a0) pid).isEmpty = true
    · rw [if_pos hemp]
      refine ⟨invCore_filter_entries (invCore_heapSet_pop hc) _, ?_⟩
      rintro n k v hkne ⟨a, hmem, hget⟩
      have hna : ¬ (n = strLower name) := by
        intro hn
        rw [hn] at hmem
        have hla : t.lookupAddr (strLower name) = some a :=
          lookupAddr_of_mem hc.names_nodup hmem
        have haa : a = a0 := by
          have hcomb := hl.symm.trans hla
          injection hcomb with hla2
          exact hla2.symm
        subst haa
        have : (k, v) ∈ dictPop (t.heapGet a) pid := mem_dictPop_of_ne hget hkne
        rw [List.isEmpty_iff] at hemp
        rw [hemp] at this
        simp at this
      refine ⟨a, ?_, hget1 a k v hkne hget⟩
      exact List.mem_filter.mpr ⟨hmem, by simpa using hna⟩
    · rw [if_neg hemp]
      exact ⟨invCore_heapSet_pop hc,
        fun n k v hkne h => by
          rcases h with ⟨a, hmem, hget⟩
          exact ⟨a, hmem, hget1 a k v hkne hget⟩⟩

theorem removeStep_pres {ever : List Person} (o : Option String) (pid : Nat)
    {acc : Except Trie Trie} (hc : InvCore (exceptState acc) ever) :
    InvCore (exceptState (removeStep acc o pid)) ever ∧
    (∀ n k v, k ≠ pid → hasPair (exceptState acc) n k v →
      hasPair (exceptState (removeStep acc o pid)) n k v) := by
  cases acc with
  | error t => exact ⟨hc, fun n k v _ h => h⟩
  | ok t =>
    have hstep : removeStep (Except.ok t) o pid =
        if truthy o then delName t (o.getD "") pid else Except.ok t := rfl
    rw [hstep]
    by_cases ho : truthy o = true
    · rw [if_pos ho]
      exact delName_pres (o.getD "") pid hc
    · rw [if_neg ho]
      exact ⟨hc, fun n k v _ h => h⟩

theorem removePerson_pres {t : Trie} {ever : List Person} (p : Person)
    (hc : InvCore t ever) :
    InvCore (exceptState (removePerson t p)) ever ∧
    (∀ n k v, k ≠ p.id → hasPair t n k v →
      hasPair (exceptState (removePerson t p)) n k v) := by
  have h1 := @removeStep_pres ever p.title p.id (Except.ok t) hc
  have h2 := removeStep_pres p.first_name p.id h1.1
  have h3 := removeStep_pres p.middle_name p.id h2.1
  have h4 := removeStep_pres p.last_name p.id h3.1
  have h5 := removeStep_pres p.suffix p.id h4.1
  exact ⟨h5.1, fun n k v hk h =>
    h5.2 n k v hk (h4.2 n k v hk (h3.2 n k v hk (h2.2 n k v hk
      (h1.2 n k v hk h))))⟩

theorem InvCore.mono {t : Trie} {ever ever1 : List Person}
    (hc : InvCore t ever) (hs : ∀ r ∈ ever, r ∈ ever1) : InvCore t ever1 := by
  constructor
  · exact hc.names_nodup
  · exact hc.next_big
  · exact hc.dom
  · intro c hcm kv hkv
    rcases hc.coh c hcm kv hkv with ⟨r, hr, h1, h2⟩
    exact ⟨r, hs r hr, h1, h2⟩

theorem reachable_inv {t : Trie} {added ever : List Person}
    (h : Reachable t added ever) : IndexInv t added ever := by
  induction h with
  | init =>
    refine ⟨⟨by simp [Trie.empty], ?_, ?_, ?_⟩, ?_, ?_, by simp, ?_⟩
    · intro c hc
      simp [Trie.empty] at hc
    · intro e he
      simp [Trie.empty] at he
    · intro c hc
      simp [Trie.empty] at hc
    · intro p hp
      simp at hp
    · intro p hp
      simp at hp
    · intro p hp
      simp at hp
  | @add t added ever q hr hfresh htok ih =>
    have hcore0 : InvCore t (q :: ever) :=
      ih.core.mono (fun r hr1 => List.mem_cons_of_mem _ hr1)
    obtain ⟨hcore, hpres, hqIdx⟩ := addPerson_pres (q := q) hcore0
    refine ⟨hcore, ?_, ?_, ?_, ?_⟩
    · intro p hp
      rcases List.mem_cons.mp hp with rfl | hp1
      · exact hqIdx
      · have hpid : p.id ≠ q.id := hfresh p (ih.sub p hp1)
        have hPI := ih.complete p hp1
        exact ⟨fun ho => hpres _ _ _ hpid (hPI.1 ho),
          fun ho => hpres _ _ _ hpid (hPI.2.1 ho),
          fun ho => hpres _ _ _ hpid (hPI.2.2.1 ho),
          fun ho => hpres _ _ _ hpid (hPI.2.2.2.1 ho),
          fun ho => hpres _ _ _ hpid (hPI.2.2.2.2 ho)⟩
    · intro p hp
      rcases List.mem_cons.mp hp with rfl | hp1
      · exact List.mem_cons_self _ _
      · exact List.mem_cons_of_mem _ (ih.sub p hp1)
    · rw [List.map_cons]
      refine List.nodup_cons.mpr ⟨?_, ih.ids_nodup⟩
      intro hmem
      rcases List.mem_map.mp hmem with ⟨r, hr1, he⟩
      exact hfresh r hr1 he
    · intro p hp
      rcases List.mem_cons.mp hp with rfl | hp1
      · exact htok
      · exact ih.tokened p hp1
  | @rem t added ever p hr hmem ih =>
    obtain ⟨hcore, hpres⟩ := removePerson_pres p ih.core
    refine ⟨hcore, ?_, ?_, ih.ids_nodup, ?_⟩
    · intro p1 hp1
      have hm := List.mem_of_mem_filter hp1
      have hne : p1.id ≠ p.id := by
        have hf := (List.mem_filter.mp hp1).2
        simpa using hf
      have hPI := ih.complete p1 hm
      exact ⟨fun ho => hpres _ _ _ hne (hPI.1 ho),
        fun ho => hpres _ _ _ hne (hPI.2.1 ho),
        fun ho => hpres _ _ _ hne (hPI.2.2.1 ho),
        fun ho => hpres _ _ _ hne (hPI.2.2.2.1 ho),
        fun ho => hpres _ _ _ hne (hPI.2.2.2.2 ho)⟩
    · intro p1 hp1
      exact ih.sub p1 (List.mem_of_mem_filter hp1)
    · intro p1 hp1
      exact ih.tokened p1 (List.mem_of_mem_filter hp1)

theorem isPfx_nil_right : ∀ x : List Char, isPfx x [] = true → x = [] := by
  intro x h
  cases x with
  | nil => rfl
  | cons a as => simp [isPfx] at h

theorem mem_nonNullAttrs_iff {p : Person} {V : String} :
    V ∈ nonNullAttrs p ↔
      some V = p.title ∨ some V = p.first_name ∨ some V = p.middle_name ∨
      some V = p.last_name ∨ some V = p.suffix := by
  simp [nonNullAttrs, List.mem_filterMap, eq_comm]

/-- C2, amended: for every index state reachable under the caller
discipline, every currently indexed person `P`, every non-null attribute
value `V` of `P`, and every case-insensitive prefix `pq` of `V` that is
either empty or splits on whitespace into exactly one word,
`findByName(pq)` succeeds and contains the pair `(P.id, P.fullName)`
exactly once.  (The original claim, quantifying over *every*
case-insensitive prefix, fails when the attribute contains whitespace:
see the counterexample.) -/
theorem findByName_complete :
    ∀ (t : Trie) (added ever : List Person), Reachable t added ever →
    ∀ p ∈ added, ∀ V ∈ nonNullAttrs p, ∀ pq : String,
      strIsPfx (strLower pq) (strLower V) = true →
      (pq = "" ∨ (pySplit pq).length = 1) →
      ∃ res, find_person_details_by_name t pq = Except.ok res ∧
        res.count (p.id, p.full_name) = 1 := by
  intro t added ever hreach p hp V hV pq hpfx hword
  have inv := reachable_inv hreach
  have hbranch : find_person_details_by_name t pq = Except.ok (findByPfx t pq) := by
    rcases hword with rfl | hlen
    · have he : ("" : String).isEmpty = true := rfl
      simp [find_person_details_by_name, he]
    · simp [find_person_details_by_name, hlen]
  refine ⟨findByPfx t pq, hbranch, ?_⟩
  have hPI := inv.complete p hp
  have hwitness : ∃ n a, (n, a) ∈ t.entries ∧ strIsPfx (strLower pq) n = true ∧
      (p.id, p.full_name) ∈ t.heapGet a := by
    by_cases hVemp : V = ""
    · subst hVemp
      have hpfx2 : isPfx (strLower pq).data [] = true := hpfx
      have hmatch : ∀ s : String, strIsPfx (strLower pq) s = true := by
        intro s
        unfold strIsPfx
        rw [isPfx_nil_right _ hpfx2]
        rfl
      have hsome : ∃ n, hasPair t n p.id p.full_name := by
        have ht := inv.tokened p hp
        simp only [Bool.or_eq_true] at ht
        rcases ht with (h1 | h2) | h3
        · exact ⟨_, hPI.2.1 h1⟩
        · exact ⟨_, hPI.2.2.1 h2⟩
        · exact ⟨_, hPI.2.2.2.1 h3⟩
      obtain ⟨n1, a, hmem, hget⟩ := hsome
      exact ⟨n1, a, hmem, hmatch n1, hget⟩
    · have hVtr : V.isEmpty = false := by
        rcases hb : V.isEmpty with _ | _
        · rfl
        · exact absurd ((String.isEmpty_iff V).mp hb) hVemp
      rcases mem_nonNullAttrs_iff.mp hV with hattr | hattr | hattr | hattr | hattr
      · obtain ⟨a, hmem, hget⟩ := hPI.1 (by rw [← hattr]; simp [truthy, hVtr])
        refine ⟨_, a, hmem, ?_, hget⟩
        rw [← hattr]
        exact hpfx
      · obtain ⟨a, hmem, hget⟩ := hPI.2.1 (by rw [← hattr]; simp [truthy, hVtr])
        refine ⟨_, a, hmem, ?_, hget⟩
        rw [← hattr]
        exact hpfx
      · obtain ⟨a, hmem, hget⟩ := hPI.2.2.1 (by rw [← hattr]; simp [truthy, hVtr])
        refine ⟨_, a, hmem, ?_, hget⟩
        rw [← hattr]
        exact hpfx
      · obtain ⟨a, hmem, hget⟩ := hPI.2.2.2.1 (by rw [← hattr]; simp [truthy, hVtr])
        refine ⟨_, a, hmem, ?_, hget⟩
        rw [← hattr]
        exact hpfx
      · obtain ⟨a, hmem, hget⟩ := hPI.2.2.2.2 (by rw [← hattr]; simp [truthy, hVtr])
        refine ⟨_, a, hmem, ?_, hget⟩
        rw [← hattr]
        exact hpfx
  obtain ⟨n0, a0, hmem0, hmatch0, hget0⟩ := hwitness
  have hds : t.heapGet a0 ∈ getPersonsByPfx t pq := by
    unfold getPersonsByPfx
    exact List.mem_map.mpr
      ⟨(n0, a0), List.mem_filter.mpr ⟨hmem0, by simpa using hmatch0⟩, rfl⟩
  have hkey : p.id ∈ dictKeys (findByPfx t pq) := by
    unfold findByPfx
    rw [mem_dictKeys_mergeFold]
    exact Or.inr ⟨_, hds, mem_dictKeys_iff.mpr ⟨_, hget0⟩⟩
  have hval : ∀ w, (p.id, w) ∈ findByPfx t pq → w = p.full_name := by
    intro w hw
    unfold findByPfx at hw
    rcases mem_mergeFold_elim _ _ _ hw with h1 | ⟨d, hd, h1⟩
    · simp at h1
    · unfold getPersonsByPfx at hd
      rcases List.mem_map.mp hd with ⟨e, _, rfl⟩
      rcases exists_cell_of_mem_heapGet h1 with ⟨c, hcm, hkv⟩
      rcases inv.core.coh c hcm _ hkv with ⟨r, hr, hrid, hrfn⟩
      have hrp : r = p :=
        List.inj_on_of_nodup_map inv.ids_nodup hr (inv.sub p hp) hrid
      rw [hrp] at hrfn
      exact hrfn
  have hpair : (p.id, p.full_name) ∈ findByPfx t pq := by
    rcases mem_dictKeys_iff.mp hkey with ⟨w, hw⟩
    rw [← hval w hw]
    exact hw
  exact count_eq_one_of_mem_nodup_keys _ _ _
    (dictKeys_nodup_mergeFold _ _ (by simp [dictKeys])) hpair

theorem findByName_complete_witness :
    ∃ res, find_person_details_by_name (addPerson Trie.empty pAb) "a"
        = Except.ok res ∧ res.count (1, "Ab") = 1 :=
  findByName_complete (addPerson Trie.empty pAb) [pAb] [pAb]
    (Reachable.add Reachable.init (by simp) (by decide)) pAb (by simp)
    "Ab" (by decide) "a" (by decide) (Or.inr (by decide))
